import Mathlib

/-!
Shallow embedding of `lhttpfs` (src/fs.rs): a lazy HTTP-backed read-only
FUSE filesystem.  The configuration tree (`InputFile`) is compiled by
`LazyHTTPFS.new` / `add_inodes` into a flat node table; the filesystem
operations `lookup`, `getattr`, `readdir`, `read` are modelled as pure
functions over that table plus the content cache.

Modelling conventions:
* `usize`/`u64` values are modelled as `Nat` (the programs in scope never
  exercise wrap-around: inode counters grow by one per config node).
* Rust `HashMap<OsString, u64>` is modelled as a key-unique association
  list built with `hashInsert` (insert-or-overwrite, matching
  `HashMap::insert` semantics used by `collect`); point lookups
  (`HashMap::get`) are `hashGet`.  Iteration order of a `HashMap` is
  arbitrary, so every theorem about `readdir` quantifies over an `iter`
  list that is a permutation of the stored entries.
* Byte buffers (`Vec<u8>`) are `List Nat`.
* The HTTP fetch performed with curl is an oracle `world : String →
  Option (List Nat)`; `none` models a transport error, on which the code
  calls `.unwrap()` and aborts the process (modelled by
  `ReadOutcome.panic`).  Out-of-bounds slicing `&data[offset..]` also
  aborts (`panic`).
-/

inductive FileType where
  | regularFile
  | directory
deriving DecidableEq, Repr

/-- Model of `fuser::FileAttr`; timestamps are `UNIX_EPOCH`, modelled as `0`. -/
structure FileAttr where
  ino : Nat
  size : Nat
  blocks : Nat
  atime : Nat
  mtime : Nat
  ctime : Nat
  crtime : Nat
  kind : FileType
  perm : Nat
  nlink : Nat
  uid : Nat
  gid : Nat
  rdev : Nat
  blksize : Nat
  flags : Nat
deriving DecidableEq, Repr

/-- The template attribute record built at the top of `add_inodes`. -/
def baseAttr : FileAttr :=
  { ino := 0, size := 0, blocks := 0, atime := 0, mtime := 0, ctime := 0,
    crtime := 0, kind := FileType.regularFile, perm := 0o444, nlink := 1,
    uid := 1000, gid := 1000, rdev := 0, blksize := 512, flags := 0 }

/-- Model of the untagged `InputFile` config enum. -/
inductive InputFile where
  | urlFile (name url : String) (size : Nat)
  | directory (name : String) (contents : List InputFile)

def InputFile.name : InputFile → String
  | .urlFile n _ _ => n
  | .directory n _ => n

structure DirNode where
  attr : FileAttr
  contents : List (String × Nat)
deriving DecidableEq, Repr

structure FileNode where
  attr : FileAttr
  url : String
deriving DecidableEq, Repr

inductive Node where
  | dirNode (d : DirNode)
  | fileNode (f : FileNode)
deriving DecidableEq, Repr

def Node.get_attr : Node → FileAttr
  | .dirNode d => d.attr
  | .fileNode f => f.attr

def Node.filetype : Node → FileType
  | .dirNode _ => FileType.directory
  | .fileNode _ => FileType.regularFile

/-- `HashMap::insert` on the association-list model: overwrite the value if
the key is present, otherwise add the pair. -/
def hashInsert (m : List (String × Nat)) (k : String) (v : Nat) :
    List (String × Nat) :=
  if m.any (fun p => p.1 == k) then
    m.map (fun p => if p.1 == k then (k, v) else p)
  else m ++ [(k, v)]

/-- `collect::<HashMap<_,_>>()`: fold `hashInsert` over the pairs. -/
def hashCollect (l : List (String × Nat)) : List (String × Nat) :=
  l.foldl (fun m p => hashInsert m p.1 p.2) []

/-- `HashMap::get` on the association-list model. -/
def hashGet (m : List (String × Nat)) (k : String) : Option Nat :=
  (m.find? (fun p => p.1 == k)).map (fun p => p.2)

mutual
/-- One iteration of the `for file in files` loop of `add_inodes` applied to
`file`, given the current value of the `inode` counter: the nodes pushed for
this entry (the entry itself followed by its recursively numbered subtree)
and the updated counter. -/
def addOne : InputFile → Nat → List Node × Nat
  | .urlFile _ url size, k =>
      ([Node.fileNode
          ⟨{ baseAttr with ino := k, size := size, blocks := size / 512 },
            url⟩], k + 1)
  | .directory _ contents, k =>
      let r := addList contents (k + 1)
      let m := hashCollect ((r.2.1.zip contents).map
        (fun p => (p.2.name, p.1)))
      (Node.dirNode ⟨{ baseAttr with ino := k, kind := FileType.directory },
        m⟩ :: r.1, r.2.2)

/-- Model of `add_inodes(files, inode)`: returns the flattened node list,
the `toplev` list of inodes assigned to the top-level entries of `files`,
and the updated counter. -/
def addList : List InputFile → Nat → List Node × List Nat × Nat
  | [], k => ([], [], k)
  | f :: rest, k =>
      let r1 := addOne f k
      let r2 := addList rest r1.2
      (r1.1 ++ r2.1, k :: r2.2.1, r2.2.2)
end

structure FS where
  nodes : List Node
  cache : List (String × List Nat)
deriving DecidableEq, Repr

instance decIno : DecidableRel
    (fun (a b : Node) => a.get_attr.ino ≤ b.get_attr.ino) :=
  fun _ _ => Nat.decLe _ _

/-- Model of `LazyHTTPFS::new`: wrap the config in the synthetic root
directory named "/", number everything starting from inode 1, sort by
inode (`sort_unstable_by_key`), and start with an empty cache. -/
def LazyHTTPFS.new (files : List InputFile) : FS :=
  let root := InputFile.directory "/" files
  let r := addList [root] 1
  { nodes := r.1.insertionSort
      (fun a b => a.get_attr.ino ≤ b.get_attr.ino),
    cache := [] }

/-- Model of `LazyHTTPFS::get_inode`. -/
def FS.get_inode (fs : FS) (i : Nat) : Option Node :=
  if i = 0 then none else fs.nodes.get? (i - 1)

/-- Model of `LazyHTTPFS::lookup`: `some attr` models `reply.entry(&TTL,
&attr, 0)`, `none` models `reply.error(ENOENT)` (also taken, with an error
log, when the parent is a file). -/
def FS.lookup (fs : FS) (parent : Nat) (name : String) : Option FileAttr :=
  match fs.get_inode parent with
  | none => none
  | some (Node.dirNode d) =>
      match (hashGet d.contents name).bind fs.get_inode with
      | some file => some file.get_attr
      | none => none
  | some (Node.fileNode _) => none

/-- Model of `LazyHTTPFS::getattr`: `some attr` models `reply.attr(&TTL,
&attr)`, `none` models `reply.error(ENOENT)`. -/
def FS.getattr (fs : FS) (ino : Nat) : Option FileAttr :=
  (fs.get_inode ino).map Node.get_attr

/-- One entry passed to `reply.add(inode, nextOffset, kind, name)`. -/
structure DirEntry where
  ino : Nat
  nextOffset : Nat
  kind : FileType
  name : String
deriving DecidableEq, Repr

/-- `Iterator::enumerate`, generalised to an arbitrary starting index. -/
def enumFromN : Nat → List α → List (Nat × α)
  | _, [] => []
  | n, a :: as => (n, a) :: enumFromN (n + 1) as

/-- The full iterator built inside `readdir` before `.enumerate()`: the two
synthetic dot entries chained with the directory's children as produced by
the map's iterator (`iter`), each child resolved through `get_inode` and
dropped if unresolvable (`filter_map`).  `iter` stands for
`dir.contents.iter()`: a `HashMap` yields its entries in an arbitrary
order, so callers instantiate `iter` with any permutation of the stored
association list. -/
def readdirListing (fs : FS) (ino : Nat) (iter : List (String × Nat)) :
    List (Nat × String × FileType) :=
  (ino, ".", FileType.directory) :: (ino, "..", FileType.directory) ::
    iter.filterMap (fun p =>
      (fs.get_inode p.2).map (fun file => (p.2, p.1, file.filetype)))

/-- The entries `readdir` would hand to `reply.add` with an unbounded
reply buffer, starting from `offset` (`.enumerate().skip(offset)`); the
`nextOffset` of the entry at global 0-based position `i` is `i + 1`. -/
def readdirAll (fs : FS) (ino : Nat) (iter : List (String × Nat))
    (offset : Nat) : List DirEntry :=
  ((enumFromN 0 (readdirListing fs ino iter)).drop offset).map
    (fun e => ⟨e.2.1, e.1 + 1, e.2.2.2, e.2.2.1⟩)

/-- Model of `LazyHTTPFS::readdir`.  `cap` models the capacity of the
reply buffer in entries: `reply.add` signals saturation once `cap` entries
have been emitted, stopping the `try_for_each` (the call still replies
`ok`).  `none` models `reply.error(ENOENT)` (unknown inode, or a file used
as a directory). -/
def FS.readdir (fs : FS) (ino : Nat) (offset : Nat) (cap : Nat)
    (iter : List (String × Nat)) : Option (List DirEntry) :=
  match fs.get_inode ino with
  | some (Node.dirNode _) => some ((readdirAll fs ino iter offset).take cap)
  | some (Node.fileNode _) => none
  | none => none

/-- `HashMap::get` for the content cache (`HashMap<String, Vec<u8>>`). -/
def cacheGet (c : List (String × List Nat)) (k : String) :
    Option (List Nat) :=
  (c.find? (fun p => p.1 == k)).map (fun p => p.2)

/-- Outcome of one `read` call.  `ok data fs fetched` models
`reply.data(data)` with post-state `fs`; `err fs fetched` models
`reply.error(ENOENT)`; `panic fetched` models a process abort (a failed
`unwrap` on the curl transfer, or out-of-bounds slicing).  `fetched` lists
the URLs passed to the fetch client during the call, in order. -/
inductive ReadOutcome where
  | ok (data : List Nat) (fs : FS) (fetched : List String)
  | err (fs : FS) (fetched : List String)
  | panic (fetched : List String)
deriving DecidableEq, Repr

/-- Model of `LazyHTTPFS::read`.  `world url` is the byte sequence the
blocking curl fetch of `url` would accumulate through the write callback
(`none` = transport error, on which the code's `.unwrap()` aborts).  On a
cache hit the cached buffer is sliced from `offset` and the state is
untouched; on a miss the whole body is fetched, sliced from `offset` and
then inserted into the cache.  Slicing `&v[offset..]` with
`offset > v.len()` aborts; `size` is only the initial capacity hint for
the fetch buffer and never affects the result. -/
def FS.read (world : String → Option (List Nat)) (fs : FS) (ino : Nat)
    (offset : Nat) (size : Nat) : ReadOutcome :=
  match fs.get_inode ino with
  | some (Node.fileNode file) =>
      match cacheGet fs.cache file.url with
      | some data =>
          if offset ≤ data.length then ReadOutcome.ok (data.drop offset) fs []
          else ReadOutcome.panic []
      | none =>
          match world file.url with
          | none => ReadOutcome.panic [file.url]
          | some vec =>
              if offset ≤ vec.length then
                ReadOutcome.ok (vec.drop offset)
                  { fs with cache := (file.url, vec) :: fs.cache } [file.url]
              else ReadOutcome.panic [file.url]
  | _ => ReadOutcome.err fs []

/-- Run a sequence of `read` operations `(ino, offset, size)` from `fs`:
returns the final state (`none` if some call aborted the process) and the
concatenated list of fetched URLs up to that point. -/
def runReads (world : String → Option (List Nat)) (fs : FS) :
    List (Nat × Nat × Nat) → Option FS × List String
  | [] => (some fs, [])
  | op :: rest =>
      match fs.read world op.1 op.2.1 op.2.2 with
      | ReadOutcome.ok _ fs' fetched =>
          let r := runReads world fs' rest
          (r.1, fetched ++ r.2)
      | ReadOutcome.err fs' fetched =>
          let r := runReads world fs' rest
          (r.1, fetched ++ r.2)
      | ReadOutcome.panic fetched => (none, fetched)

/-! ### Helper lemmas on the hash-map model -/

def keysNodup (m : List (String × Nat)) : Prop := (m.map Prod.fst).Nodup

theorem hashGet_eq_of_mem {m : List (String × Nat)} {k : String} {v : Nat}
    (hnd : keysNodup m) (hmem : (k, v) ∈ m) : hashGet m k = some v := by
  induction m with
  | nil => cases hmem
  | cons p rest ih =>
    rcases List.mem_cons.mp hmem with h | h
    · rw [← h]
      simp [hashGet, List.find?_cons]
    · have hk : p.1 ≠ k := by
        intro he
        have hkeys : k ∈ rest.map Prod.fst := by
          exact List.mem_map.mpr ⟨(k, v), h, rfl⟩
        have := (List.nodup_cons.mp hnd).1
        rw [he] at this
        exact this hkeys
      have hb : (p.1 == k) = false := by
        simp [hk]
      simp only [hashGet, List.find?_cons, hb]
      exact ih (List.nodup_cons.mp hnd).2 h

theorem hashInsert_vals {m : List (String × Nat)} {k : String} {v x : Nat}
    (hx : x ∈ (hashInsert m k v).map Prod.snd) :
    x ∈ m.map Prod.snd ∨ x = v := by
  unfold hashInsert at hx
  split at hx
  · rw [List.map_map] at hx
    rcases List.mem_map.mp hx with ⟨p, hp, he⟩
    by_cases hpk : (p.1 == k) = true
    · right
      rw [Function.comp_apply, if_pos hpk] at he
      exact he.symm
    · left
      simp only [Function.comp, hpk] at he
      rw [if_neg (by simp_all)] at he
      exact List.mem_map.mpr ⟨p, hp, he⟩
  · rw [List.map_append] at hx
    rcases List.mem_append.mp hx with h | h
    · exact Or.inl h
    · right
      simpa using h

theorem hashInsert_keysNodup {m : List (String × Nat)} {k : String} {v : Nat}
    (h : keysNodup m) : keysNodup (hashInsert m k v) := by
  unfold hashInsert
  split
  · have he : (m.map (fun p => if p.1 == k then (k, v) else p)).map Prod.fst
        = m.map Prod.fst := by
      rw [List.map_map]
      apply List.map_congr_left
      intro p _
      by_cases hpk : (p.1 == k) = true
      · simp only [Function.comp_apply, if_pos hpk]
        exact (eq_of_beq hpk).symm
      · simp only [Function.comp_apply, if_neg hpk]
    rw [keysNodup, he]
    exact h
  · next hany =>
    rw [keysNodup, List.map_append]
    rw [List.nodup_append]
    refine ⟨h, List.nodup_singleton _, ?_⟩
    intro a ha hb
    have ha' : a ∈ m.map Prod.fst := ha
    rcases List.mem_map.mp ha' with ⟨p, hp, he⟩
    have hk : a = k := by simpa using hb
    apply hany
    refine List.any_eq_true.mpr ⟨p, hp, ?_⟩
    rw [he, hk]
    simp

theorem hashFold_spec (l : List (String × Nat)) :
    ∀ acc : List (String × Nat), keysNodup acc →
      keysNodup (l.foldl (fun m p => hashInsert m p.1 p.2) acc) ∧
      ∀ x ∈ (l.foldl (fun m p => hashInsert m p.1 p.2) acc).map Prod.snd,
        x ∈ acc.map Prod.snd ∨ x ∈ l.map Prod.snd := by
  induction l with
  | nil => intro acc hacc; exact ⟨hacc, fun x hx => Or.inl hx⟩
  | cons p rest ih =>
    intro acc hacc
    have hacc' : keysNodup (hashInsert acc p.1 p.2) :=
      hashInsert_keysNodup hacc
    obtain ⟨h1, h2⟩ := ih (hashInsert acc p.1 p.2) hacc'
    refine ⟨h1, ?_⟩
    intro x hx
    rcases h2 x hx with h | h
    · rcases hashInsert_vals h with h' | h'
      · exact Or.inl h'
      · right
        rw [List.map_cons, h']
        exact List.mem_cons_self _ _
    · right
      rw [List.map_cons]
      exact List.mem_cons_of_mem _ h

theorem hashCollect_keysNodup (l : List (String × Nat)) :
    keysNodup (hashCollect l) :=
  (hashFold_spec l [] (by simp [keysNodup])).1

theorem hashCollect_vals (l : List (String × Nat)) :
    ∀ x ∈ (hashCollect l).map Prod.snd, x ∈ l.map Prod.snd := by
  intro x hx
  rcases (hashFold_spec l [] (by simp [keysNodup])).2 x hx with h | h
  · simp at h
  · exact h

/-! ### Helper lemmas on `enumFromN` -/

theorem enumFromN_length (n : Nat) (l : List α) :
    (enumFromN n l).length = l.length := by
  induction l generalizing n with
  | nil => rfl
  | cons a as ih => simp [enumFromN, ih]

theorem enumFromN_drop (n k : Nat) (l : List α) :
    (enumFromN n l).drop k = enumFromN (n + k) (l.drop k) := by
  induction l generalizing n k with
  | nil => simp [enumFromN]
  | cons a as ih =>
    cases k with
    | zero => simp [enumFromN]
    | succ k' =>
      simp only [enumFromN, List.drop_succ_cons]
      rw [ih (n + 1) k']
      congr 1
      omega

theorem enumFromN_get? (n j : Nat) (l : List α) :
    (enumFromN n l).get? j = (l.get? j).map (fun a => (n + j, a)) := by
  induction l generalizing n j with
  | nil => simp [enumFromN]
  | cons a as ih =>
    cases j with
    | zero => simp [enumFromN]
    | succ j' =>
      simp only [enumFromN, List.get?_cons_succ]
      rw [ih (n + 1) j']
      cases as.get? j' <;> simp <;> omega

/-! ### Pre-order shapes and the node-table invariant -/

/-- The observable shape of a node: used to state that the table lists the
config nodes in pre-order. -/
inductive Shape where
  | file (url : String) (size : Nat)
  | dir
deriving DecidableEq, Repr

def Node.shape : Node → Shape
  | Node.dirNode _ => Shape.dir
  | Node.fileNode f => Shape.file f.url f.attr.size

mutual
/-- Pre-order listing of the shapes of one config entry and its subtree. -/
def preShape : InputFile → List Shape
  | .urlFile _ url size => [Shape.file url size]
  | .directory _ cs => Shape.dir :: preShapeList cs

/-- Pre-order listing of the shapes of a config forest. -/
def preShapeList : List InputFile → List Shape
  | [] => []
  | f :: rest => preShape f ++ preShapeList rest
end

/-- Local well-formedness of one node with respect to an inode window:
directory children have distinct names and map into `[lo, hi)`. -/
def nodeOk (lo hi : Nat) : Node → Prop
  | Node.dirNode d =>
      keysNodup d.contents ∧ ∀ p ∈ d.contents, lo ≤ p.2 ∧ p.2 < hi
  | Node.fileNode _ => True

theorem nodeOk_mono {lo hi lo' hi' : Nat} {nd : Node} (h : nodeOk lo hi nd)
    (hlo : lo' ≤ lo) (hhi : hi ≤ hi') : nodeOk lo' hi' nd := by
  cases nd with
  | dirNode d =>
    exact ⟨h.1, fun p hp =>
      ⟨le_trans hlo (h.2 p hp).1, lt_of_lt_of_le (h.2 p hp).2 hhi⟩⟩
  | fileNode f => trivial

mutual
theorem addOne_spec (f : InputFile) (k : Nat) :
    0 < (addOne f k).1.length ∧
    (addOne f k).2 = k + (addOne f k).1.length ∧
    (addOne f k).1.map (fun nd => nd.get_attr.ino)
      = List.range' k (addOne f k).1.length ∧
    (addOne f k).1.map Node.shape = preShape f ∧
    ∀ nd ∈ (addOne f k).1, nodeOk k (addOne f k).2 nd := by
  cases f with
  | urlFile n u s =>
    refine ⟨by simp [addOne], by simp [addOne], ?_, ?_, ?_⟩
    · simp [addOne, Node.get_attr, List.range']
    · simp [addOne, Node.shape, preShape]
    · intro nd hnd
      simp only [addOne, List.mem_singleton] at hnd
      rw [hnd]
      simp [nodeOk]
  | directory n cs =>
    obtain ⟨hcnt, hino, hshape, hok, htlen, htbnd⟩ := addList_spec cs (k + 1)
    simp only [addOne]
    refine ⟨by simp, by simp; omega, ?_, ?_, ?_⟩
    · simp only [List.map_cons, List.length_cons]
      rw [List.range'_succ]
      congr 1
      try exact hino
    · simp only [List.map_cons, Node.shape, preShape, hshape]
    · intro nd hnd
      rcases List.mem_cons.mp hnd with h | h
      · rw [h]
        simp only [nodeOk]
        refine ⟨hashCollect_keysNodup _, ?_⟩
        intro p hp
        have hv : p.2 ∈ (hashCollect (((addList cs (k + 1)).2.1.zip cs).map
            (fun p => (p.2.name, p.1)))).map Prod.snd :=
          List.mem_map.mpr ⟨p, hp, rfl⟩
        have hv' := hashCollect_vals _ _ hv
        rw [List.map_map] at hv'
        rcases List.mem_map.mp hv' with ⟨q, hq, he⟩
        have hq' : (q.1, q.2) ∈ (addList cs (k + 1)).2.1.zip cs := by
          rw [Prod.mk.eta]
          exact hq
        have hq1 : q.1 ∈ (addList cs (k + 1)).2.1 := (List.of_mem_zip hq').1
        have hb := htbnd q.1 hq1
        simp only [Function.comp_apply] at he
        rw [← he]
        exact ⟨by omega, by omega⟩
      · exact nodeOk_mono (hok nd h) (by omega) (by omega)
termination_by sizeOf f

theorem addList_spec (fs : List InputFile) (k : Nat) :
    (addList fs k).2.2 = k + (addList fs k).1.length ∧
    (addList fs k).1.map (fun nd => nd.get_attr.ino)
      = List.range' k (addList fs k).1.length ∧
    (addList fs k).1.map Node.shape = preShapeList fs ∧
    (∀ nd ∈ (addList fs k).1, nodeOk k (addList fs k).2.2 nd) ∧
    (addList fs k).2.1.length = fs.length ∧
    ∀ v ∈ (addList fs k).2.1, k ≤ v ∧ v < (addList fs k).2.2 := by
  cases fs with
  | nil =>
    refine ⟨by simp [addList], by simp [addList, List.range'], ?_, ?_, ?_, ?_⟩
    · simp [addList, preShapeList]
    · intro nd hnd
      simp [addList] at hnd
    · simp [addList]
    · intro v hv
      simp [addList] at hv
  | cons f rest =>
    obtain ⟨hpos1, hcnt1, hino1, hshape1, hok1⟩ := addOne_spec f k
    obtain ⟨hcnt2, hino2, hshape2, hok2, htlen2, htbnd2⟩ :=
      addList_spec rest (addOne f k).2
    simp only [addList]
    refine ⟨?_, ?_, ?_, ?_, ?_, ?_⟩
    · simp only [List.length_append]
      omega
    · simp only [List.map_append, List.length_append]
      rw [hino1, hino2]
      have hap := List.range'_append k (addOne f k).1.length
        (addList rest (addOne f k).2).1.length 1
      rw [Nat.one_mul, ← hcnt1] at hap
      rw [hap]
      congr 1
      omega
    · simp only [List.map_append, hshape1, hshape2, preShapeList]
    · intro nd hnd
      rcases List.mem_append.mp hnd with h | h
      · exact nodeOk_mono (hok1 nd h) (le_refl _) (by omega)
      · exact nodeOk_mono (hok2 nd h) (by omega) (le_refl _)
    · simp [htlen2]
    · intro v hv
      rcases List.mem_cons.mp hv with h | h
      · constructor
        · omega
        · omega
      · have := htbnd2 v h
        constructor
        · omega
        · omega
termination_by sizeOf fs
end

/-! ### Invariants of the constructed table -/

theorem addList_single (f : InputFile) (k : Nat) :
    (addList [f] k).1 = (addOne f k).1 := by
  simp [addList]

theorem range'_pairwise_le (s n : Nat) :
    (List.range' s n).Pairwise (· ≤ ·) := by
  induction n generalizing s with
  | zero => simp
  | succ n ih =>
    rw [List.range'_succ]
    refine List.Pairwise.cons ?_ (ih (s + 1))
    intro y hy
    have := List.mem_range'_1.mp hy
    omega

theorem sorted_of_map_ino {l : List Node} {s : Nat}
    (h : l.map (fun nd => nd.get_attr.ino) = List.range' s l.length) :
    l.Sorted (fun a b => a.get_attr.ino ≤ b.get_attr.ino) := by
  have hp : (l.map (fun nd => nd.get_attr.ino)).Pairwise (· ≤ ·) := by
    rw [h]
    exact range'_pairwise_le s l.length
  exact List.pairwise_map.mp hp

/-- The node list produced by `add_inodes` is already in increasing inode
order, so the `sort_unstable_by_key` in `new` leaves it unchanged. -/
theorem new_nodes_raw (files : List InputFile) :
    (LazyHTTPFS.new files).nodes
      = (addOne (InputFile.directory "/" files) 1).1 := by
  simp only [LazyHTTPFS.new]
  rw [addList_single]
  exact List.Sorted.insertionSort_eq
    (sorted_of_map_ino (addOne_spec (InputFile.directory "/" files) 1).2.2.1)

/-- The three structural invariants of a constructed table: inodes in
table order are `1, 2, …, N`; the shapes in table order are the synthetic
root followed by the pre-order listing of the config; every node is
locally well formed with children identifiers in `[1, N]`. -/
theorem new_spec (files : List InputFile) :
    (LazyHTTPFS.new files).nodes.map (fun nd => nd.get_attr.ino)
      = List.range' 1 (LazyHTTPFS.new files).nodes.length ∧
    (LazyHTTPFS.new files).nodes.map Node.shape
      = Shape.dir :: preShapeList files ∧
    ∀ nd ∈ (LazyHTTPFS.new files).nodes,
      nodeOk 1 (1 + (LazyHTTPFS.new files).nodes.length) nd := by
  obtain ⟨hpos, hcnt, hino, hshape, hok⟩ :=
    addOne_spec (InputFile.directory "/" files) 1
  rw [new_nodes_raw]
  refine ⟨hino, ?_, ?_⟩
  · rw [hshape]
    simp [preShape]
  · intro nd hnd
    exact nodeOk_mono (hok nd hnd) (le_refl _) (by omega)

theorem ino_of_map_range' (l : List Node) (s : Nat)
    (hm : l.map (fun nd => nd.get_attr.ino) = List.range' s l.length) :
    ∀ (j : Nat) (h : j < l.length), (l.get ⟨j, h⟩).get_attr.ino = s + j := by
  induction l generalizing s with
  | nil => intro j h; cases h
  | cons a as ih =>
    intro j h
    rw [List.length_cons, List.range'_succ, List.map_cons] at hm
    injection hm with h1 h2
    cases j with
    | zero => simpa using h1
    | succ j' =>
      have := ih (s + 1) h2 j' (by simpa using h)
      simp only [List.get_cons_succ]
      omega

theorem new_ino_at {files : List InputFile} {j : Nat}
    (h : j < (LazyHTTPFS.new files).nodes.length) :
    ((LazyHTTPFS.new files).nodes.get ⟨j, h⟩).get_attr.ino = 1 + j :=
  ino_of_map_range' _ 1 (new_spec files).1 j h

/-- `get_inode` on an identifier inside `[1, N]` hits the node stored at
position `i - 1`, whose inode field is `i`. -/
theorem new_get_inode_some {files : List InputFile} {i : Nat}
    (h1 : 1 ≤ i) (h2 : i ≤ (LazyHTTPFS.new files).nodes.length) :
    ∃ (h : i - 1 < (LazyHTTPFS.new files).nodes.length),
      (LazyHTTPFS.new files).get_inode i
        = some ((LazyHTTPFS.new files).nodes.get ⟨i - 1, h⟩) ∧
      ((LazyHTTPFS.new files).nodes.get ⟨i - 1, h⟩).get_attr.ino = i := by
  have h : i - 1 < (LazyHTTPFS.new files).nodes.length := by omega
  refine ⟨h, ?_, ?_⟩
  · simp only [FS.get_inode, if_neg (by omega : ¬ i = 0)]
    exact List.get?_eq_get h
  · rw [new_ino_at h]
    omega

/-- `get_inode` on identifier `0` or beyond the table answers `none`. -/
theorem get_inode_none (fs : FS) {i : Nat}
    (h : i = 0 ∨ fs.nodes.length < i) : fs.get_inode i = none := by
  rcases h with h | h
  · simp [FS.get_inode, h]
  · simp only [FS.get_inode]
    rw [if_neg (by omega : ¬ i = 0)]
    exact List.get?_eq_none.mpr (by omega)

/-- Every child identifier recorded in any directory of a constructed
table denotes a node of the table. -/
theorem new_children_valid {files : List InputFile} {d : DirNode}
    {p : String × Nat}
    (hd : Node.dirNode d ∈ (LazyHTTPFS.new files).nodes)
    (hp : p ∈ d.contents) :
    1 ≤ p.2 ∧ p.2 ≤ (LazyHTTPFS.new files).nodes.length := by
  have hok := (new_spec files).2.2 _ hd
  have := hok.2 p hp
  omega

/-- Directory children maps of a constructed table have pairwise distinct
names. -/
theorem new_children_nodup {files : List InputFile} {d : DirNode}
    (hd : Node.dirNode d ∈ (LazyHTTPFS.new files).nodes) :
    keysNodup d.contents :=
  ((new_spec files).2.2 _ hd).1

/-- Identifier 1 of a constructed table is the synthetic root directory. -/
theorem new_root (files : List InputFile) :
    ∃ d : DirNode, (LazyHTTPFS.new files).get_inode 1
      = some (Node.dirNode d) ∧ d.attr.ino = 1 := by
  have hshape := (new_spec files).2.1
  cases hnodes : (LazyHTTPFS.new files).nodes with
  | nil =>
    rw [hnodes] at hshape
    cases hshape
  | cons a as =>
    have hlen : 1 ≤ (LazyHTTPFS.new files).nodes.length := by
      rw [hnodes]
      simp
    obtain ⟨h, hsome, hino⟩ := new_get_inode_some (le_refl 1) hlen
    cases a with
    | fileNode f =>
      rw [hnodes, List.map_cons] at hshape
      injection hshape with hhd
      cases hhd
    | dirNode d =>
      have e : (LazyHTTPFS.new files).nodes.get ⟨1 - 1, h⟩ = Node.dirNode d := by
        rw [List.get_of_eq hnodes ⟨1 - 1, h⟩]
        rfl
      refine ⟨d, ?_, ?_⟩
      · rw [hsome, e]
      · rw [e] at hino
        simpa [Node.get_attr] using hino

theorem get_inode_mem {fs : FS} {i : Nat} {nd : Node}
    (h : fs.get_inode i = some nd) : nd ∈ fs.nodes := by
  unfold FS.get_inode at h
  split at h
  · cases h
  · exact List.get?_mem h

/-! ### The worked example configuration -/

/-- The two-level example config used throughout the spec:
`[a.txt (url http://x/a, size 5), d [b.txt (url http://x/b, size 3)]]`. -/
def exampleConfig : List InputFile :=
  [InputFile.urlFile "a.txt" "http://x/a" 5,
   InputFile.directory "d"
     [InputFile.urlFile "b.txt" "http://x/b" 3]]

/-- C9: building the table from the two-level example config yields
exactly: inode 1 = root directory with children {a.txt→2, d→3}; inode 2 =
file a.txt of size 5; inode 3 = directory d with children {b.txt→4};
inode 4 = file b.txt of size 3. -/
theorem build_example_table :
    (LazyHTTPFS.new exampleConfig).nodes =
      [Node.dirNode
         ⟨{ baseAttr with ino := 1, kind := FileType.directory },
          [("a.txt", 2), ("d", 3)]⟩,
       Node.fileNode
         ⟨{ baseAttr with ino := 2, size := 5, blocks := 0 }, "http://x/a"⟩,
       Node.dirNode
         ⟨{ baseAttr with ino := 3, kind := FileType.directory },
          [("b.txt", 4)]⟩,
       Node.fileNode
         ⟨{ baseAttr with ino := 4, size := 3, blocks := 0 }, "http://x/b"⟩]
      := by
  decide

/-- C8: `getattr` answers the stored node's attributes for every
identifier in `[1, N]` (and that node's inode field is the identifier
itself); identifier 0 and identifiers beyond the table answer NotFound. -/
theorem getattr_table_bounds (files : List InputFile) (i : Nat) :
    (1 ≤ i → i ≤ (LazyHTTPFS.new files).nodes.length →
      ∃ (h : i - 1 < (LazyHTTPFS.new files).nodes.length),
        (LazyHTTPFS.new files).getattr i
          = some ((LazyHTTPFS.new files).nodes.get ⟨i - 1, h⟩).get_attr ∧
        ((LazyHTTPFS.new files).nodes.get ⟨i - 1, h⟩).get_attr.ino = i) ∧
    ((LazyHTTPFS.new files).getattr 0 = none) ∧
    ((LazyHTTPFS.new files).nodes.length < i →
      (LazyHTTPFS.new files).getattr i = none) := by
  refine ⟨?_, ?_, ?_⟩
  · intro h1 h2
    obtain ⟨h, hsome, hino⟩ := new_get_inode_some h1 h2
    exact ⟨h, by simp [FS.getattr, hsome], hino⟩
  · simp [FS.getattr, get_inode_none _ (Or.inl rfl)]
  · intro hgt
    simp [FS.getattr, get_inode_none _ (Or.inr hgt)]

/-- Witness for C8 at the 4-node example table: identifier 999 and
identifier 0 both answer NotFound. -/
theorem getattr_table_bounds_witness :
    (LazyHTTPFS.new exampleConfig).getattr 999 = none ∧
    (LazyHTTPFS.new exampleConfig).getattr 0 = none :=
  ⟨(getattr_table_bounds exampleConfig 999).2.2 (by decide),
   (getattr_table_bounds exampleConfig 999).2.1⟩

/-- C7: `read` on an unknown identifier (0 or beyond the table) or on a
directory replies NotFound with the filesystem state unchanged and no
fetch performed; in particular `read` on inode 1 of any constructed table
(the root directory) replies NotFound. -/
theorem read_not_file (world : String → Option (List Nat)) (fs : FS)
    (ino off sz : Nat) :
    (fs.get_inode ino = none →
      fs.read world ino off sz = ReadOutcome.err fs []) ∧
    (∀ d, fs.get_inode ino = some (Node.dirNode d) →
      fs.read world ino off sz = ReadOutcome.err fs []) ∧
    ((ino = 0 ∨ fs.nodes.length < ino) →
      fs.read world ino off sz = ReadOutcome.err fs []) ∧
    (∀ files, fs = LazyHTTPFS.new files →
      fs.read world 1 off sz = ReadOutcome.err fs []) := by
  have hnone : fs.get_inode ino = none →
      fs.read world ino off sz = ReadOutcome.err fs [] := by
    intro h
    simp [FS.read, h]
  have hdir : ∀ d, fs.get_inode ino = some (Node.dirNode d) →
      fs.read world ino off sz = ReadOutcome.err fs [] := by
    intro d h
    simp [FS.read, h]
  refine ⟨hnone, hdir, ?_, ?_⟩
  · intro h
    exact hnone (get_inode_none fs h)
  · intro files hfs
    subst hfs
    obtain ⟨d, hd, _⟩ := new_root files
    simp [FS.read, hd]

/-- Witness for C7: on the example table, `read` of inode 1 (the root),
inode 0 and inode 999 all reply NotFound without state change or fetch. -/
theorem read_not_file_witness :
    FS.read (fun _ => some []) (LazyHTTPFS.new exampleConfig) 1 0 5
      = ReadOutcome.err (LazyHTTPFS.new exampleConfig) [] ∧
    FS.read (fun _ => some []) (LazyHTTPFS.new exampleConfig) 0 0 5
      = ReadOutcome.err (LazyHTTPFS.new exampleConfig) [] ∧
    FS.read (fun _ => some []) (LazyHTTPFS.new exampleConfig) 999 0 5
      = ReadOutcome.err (LazyHTTPFS.new exampleConfig) [] :=
  ⟨(read_not_file (fun _ => some []) (LazyHTTPFS.new exampleConfig) 1 0 5).2.2.2
     exampleConfig rfl,
   (read_not_file (fun _ => some []) (LazyHTTPFS.new exampleConfig) 0 0 5).2.2.1
     (Or.inl rfl),
   (read_not_file (fun _ => some []) (LazyHTTPFS.new exampleConfig) 999 0 5).2.2.1
     (Or.inr (by decide))⟩

/-- C2: in every constructed table, the shapes in table order are the
synthetic root directory followed by the pre-order listing of the config
tree; the inodes in table order are exactly `1, …, N` (pre-order
assignment, root = 1, contiguous, identifier = 1-based position); and
every child identifier recorded in any directory resolves to a node of
the table. -/
theorem build_preorder_invariants (files : List InputFile) :
    ((LazyHTTPFS.new files).nodes.map Node.shape
        = Shape.dir :: preShapeList files) ∧
    ((LazyHTTPFS.new files).nodes.map (fun nd => nd.get_attr.ino)
        = List.range' 1 (LazyHTTPFS.new files).nodes.length) ∧
    (∃ d, (LazyHTTPFS.new files).get_inode 1 = some (Node.dirNode d)
        ∧ d.attr.ino = 1) ∧
    (∀ (j : Nat) (h : j < (LazyHTTPFS.new files).nodes.length),
        ((LazyHTTPFS.new files).nodes.get ⟨j, h⟩).get_attr.ino = j + 1) ∧
    (∀ d, Node.dirNode d ∈ (LazyHTTPFS.new files).nodes →
        ∀ p ∈ d.contents,
          ∃ nd, (LazyHTTPFS.new files).get_inode p.2 = some nd) := by
  refine ⟨(new_spec files).2.1, (new_spec files).1, new_root files, ?_, ?_⟩
  · intro j h
    rw [new_ino_at h]
    omega
  · intro d hd p hp
    obtain ⟨hb1, hb2⟩ := new_children_valid hd hp
    obtain ⟨h, hsome, _⟩ := new_get_inode_some hb1 hb2
    exact ⟨_, hsome⟩

/-- Witness for C2 at the example config: node positions 0 and 2 carry
inodes 1 and 3, the root is a directory with inode 1, and the root's
child identifier 2 resolves. -/
theorem build_preorder_invariants_witness :
    ((LazyHTTPFS.new exampleConfig).nodes.get ⟨2, by decide⟩).get_attr.ino
      = 3 ∧
    (∃ d, (LazyHTTPFS.new exampleConfig).get_inode 1
        = some (Node.dirNode d) ∧ d.attr.ino = 1) :=
  ⟨(build_preorder_invariants exampleConfig).2.2.2.1 2 (by decide),
   (build_preorder_invariants exampleConfig).2.2.1⟩

/-- C5: on a constructed table, `lookup` of any recorded child name under
a directory succeeds with exactly the attributes `getattr` reports for the
recorded child identifier; `lookup` answers NotFound when the parent is
unknown, when the parent is a file (logged misuse), and when the name is
absent from the directory's children map. -/
theorem lookup_matches_getattr (files : List InputFile) (parent cid : Nat)
    (name : String) :
    (∀ d, (LazyHTTPFS.new files).get_inode parent
        = some (Node.dirNode d) → (name, cid) ∈ d.contents →
      ∃ a, (LazyHTTPFS.new files).lookup parent name = some a ∧
        (LazyHTTPFS.new files).getattr cid = some a) ∧
    ((LazyHTTPFS.new files).get_inode parent = none →
      (LazyHTTPFS.new files).lookup parent name = none) ∧
    (∀ f, (LazyHTTPFS.new files).get_inode parent
        = some (Node.fileNode f) →
      (LazyHTTPFS.new files).lookup parent name = none) ∧
    (∀ d, (LazyHTTPFS.new files).get_inode parent
        = some (Node.dirNode d) → hashGet d.contents name = none →
      (LazyHTTPFS.new files).lookup parent name = none) := by
  refine ⟨?_, ?_, ?_, ?_⟩
  · intro d hd hmem
    have hdm : Node.dirNode d ∈ (LazyHTTPFS.new files).nodes :=
      get_inode_mem hd
    have hget : hashGet d.contents name = some cid :=
      hashGet_eq_of_mem (new_children_nodup hdm) hmem
    obtain ⟨hb1, hb2⟩ := new_children_valid hdm hmem
    obtain ⟨h, hsome, _⟩ := new_get_inode_some hb1 hb2
    refine ⟨((LazyHTTPFS.new files).nodes.get ⟨cid - 1, h⟩).get_attr, ?_, ?_⟩
    · simp [FS.lookup, hd, hget, hsome]
    · simp [FS.getattr, hsome]
  · intro h
    simp [FS.lookup, h]
  · intro f h
    simp [FS.lookup, h]
  · intro d hd hnone
    simp [FS.lookup, hd, hnone]

/-- Witness for C5: on the example table, `lookup(1, "a.txt")` and
`getattr(2)` agree, and `lookup(2, "a.txt")` (file as parent) is
NotFound. -/
theorem lookup_matches_getattr_witness :
    (∃ a, (LazyHTTPFS.new exampleConfig).lookup 1 "a.txt" = some a ∧
       (LazyHTTPFS.new exampleConfig).getattr 2 = some a) ∧
    (LazyHTTPFS.new exampleConfig).lookup 2 "a.txt" = none :=
  ⟨(lookup_matches_getattr exampleConfig 1 2 "a.txt").1
     ⟨{ baseAttr with ino := 1, kind := FileType.directory },
      [("a.txt", 2), ("d", 3)]⟩ (by decide) (by decide),
   (lookup_matches_getattr exampleConfig 2 2 "a.txt").2.2.1
     ⟨{ baseAttr with ino := 2, size := 5, blocks := 0 }, "http://x/a"⟩
     (by decide)⟩

/-! ### Lemmas about `readdir` positions -/

theorem readdirAll_drop (fs : FS) (ino k : Nat)
    (iter : List (String × Nat)) :
    (readdirAll fs ino iter 0).drop k = readdirAll fs ino iter k := by
  unfold readdirAll
  rw [List.drop_zero, ← List.map_drop]

theorem readdirAll_get? (fs : FS) (ino k j : Nat)
    (iter : List (String × Nat)) :
    (readdirAll fs ino iter k).get? j
      = ((readdirListing fs ino iter).get? (k + j)).map
          (fun t => (⟨t.1, k + j + 1, t.2.2, t.2.1⟩ : DirEntry)) := by
  unfold readdirAll
  rw [enumFromN_drop, List.get?_map, enumFromN_get?, List.get?_drop,
    Option.map_map]
  cases (readdirListing fs ino iter).get? (k + j) <;> simp

/-- C6: for a directory inode, `readdir` at offset `k` replies success
with exactly the suffix of the from-scratch emission starting at the
entries of 0-based position `≥ k` (truncated to the reply buffer), the
from-scratch emission places "." and ".." at positions 0 and 1, both with
the directory's own inode and type Directory, every emitted entry's
`nextOffset` is its 0-based global position + 1, and `readdir` replies
NotFound on an unknown inode or a file. -/
theorem readdir_resume (fs : FS) (ino k cap : Nat)
    (iter : List (String × Nat)) :
    (∀ d, fs.get_inode ino = some (Node.dirNode d) →
      (fs.readdir ino k cap iter
        = some (((readdirAll fs ino iter 0).drop k).take cap)) ∧
      ((readdirAll fs ino iter 0).get? 0
        = some ⟨ino, 1, FileType.directory, "."⟩) ∧
      ((readdirAll fs ino iter 0).get? 1
        = some ⟨ino, 2, FileType.directory, ".."⟩) ∧
      (∀ es, fs.readdir ino k cap iter = some es →
        ∀ j e, es.get? j = some e → e.nextOffset = k + j + 1)) ∧
    (fs.get_inode ino = none → fs.readdir ino k cap iter = none) ∧
    (∀ f, fs.get_inode ino = some (Node.fileNode f) →
      fs.readdir ino k cap iter = none) := by
  refine ⟨?_, ?_, ?_⟩
  · intro d hd
    have hrd : fs.readdir ino k cap iter
        = some ((readdirAll fs ino iter k).take cap) := by
      simp [FS.readdir, hd]
    refine ⟨?_, rfl, rfl, ?_⟩
    · rw [hrd, readdirAll_drop]
    · intro es hes j e hje
      rw [hrd] at hes
      injection hes with hesv
      rw [← hesv] at hje
      have hjcap : j < cap := by
        obtain ⟨hlt, _⟩ := List.get?_eq_some.mp hje
        have := List.length_take cap (readdirAll fs ino iter k)
        omega
      rw [List.get?_take hjcap] at hje
      rw [readdirAll_get? fs ino k j iter] at hje
      cases hl : (readdirListing fs ino iter).get? (k + j) with
      | none =>
        rw [hl] at hje
        cases hje
      | some t =>
        rw [hl] at hje
        simp only [Option.map_some'] at hje
        injection hje with he
        rw [← he]
  · intro h
    simp [FS.readdir, h]
  · intro f h
    simp [FS.readdir, h]

/-- Witness for C6 at the example table's root with the stored iteration
order: resuming at offset 2 yields exactly the suffix of the from-scratch
emission. -/
theorem readdir_resume_witness :
    (LazyHTTPFS.new exampleConfig).readdir 1 2 100 [("a.txt", 2), ("d", 3)]
      = some (((readdirAll (LazyHTTPFS.new exampleConfig) 1
          [("a.txt", 2), ("d", 3)] 0).drop 2).take 100) ∧
    ((readdirAll (LazyHTTPFS.new exampleConfig) 1
        [("a.txt", 2), ("d", 3)] 0).get? 0
      = some ⟨1, 1, FileType.directory, "."⟩) :=
  ⟨((readdir_resume (LazyHTTPFS.new exampleConfig) 1 2 100
      [("a.txt", 2), ("d", 3)]).1
      ⟨{ baseAttr with ino := 1, kind := FileType.directory },
       [("a.txt", 2), ("d", 3)]⟩ (by decide)).1,
   ((readdir_resume (LazyHTTPFS.new exampleConfig) 1 2 100
      [("a.txt", 2), ("d", 3)]).1
      ⟨{ baseAttr with ino := 1, kind := FileType.directory },
       [("a.txt", 2), ("d", 3)]⟩ (by decide)).2.1⟩

/-- C10: `read` on a file slices the whole backing buffer from
`byteOffset` regardless of `requestedSize` — the cached buffer on a hit,
the freshly fetched body on a miss (whose length is never validated
against the configured size) — and succeeds exactly when `byteOffset` is
at most the buffer's length; for any larger offset the slicing is out of
bounds and the call aborts the process instead of returning an error. -/
theorem read_slices_suffix (world : String → Option (List Nat)) (fs : FS)
    (ino off sz : Nat) (file : FileNode) (buf : List Nat)
    (hf : fs.get_inode ino = some (Node.fileNode file)) :
    (cacheGet fs.cache file.url = some buf →
      (off ≤ buf.length →
        fs.read world ino off sz = ReadOutcome.ok (buf.drop off) fs []) ∧
      (buf.length < off →
        fs.read world ino off sz = ReadOutcome.panic [])) ∧
    (cacheGet fs.cache file.url = none → world file.url = some buf →
      (off ≤ buf.length →
        fs.read world ino off sz = ReadOutcome.ok (buf.drop off)
          ⟨fs.nodes, (file.url, buf) :: fs.cache⟩ [file.url]) ∧
      (buf.length < off →
        fs.read world ino off sz = ReadOutcome.panic [file.url])) := by
  constructor
  · intro hc
    constructor
    · intro hoff
      simp [FS.read, hf, hc, hoff]
    · intro hoff
      simp [FS.read, hf, hc, if_neg (by omega : ¬ off ≤ buf.length)]
  · intro hc hw
    constructor
    · intro hoff
      simp [FS.read, hf, hc, hw, hoff]
    · intro hoff
      simp [FS.read, hf, hc, hw, if_neg (by omega : ¬ off ≤ buf.length)]

/-- Witness for C10: with `"hello"` backing a.txt, a cache-miss read at
offset 2 returns the suffix and caches the body; a read at offset 7
(beyond the 5-byte body, though within no configured bound) aborts. -/
theorem read_slices_suffix_witness :
    FS.read (fun u => if u = "http://x/a"
        then some [104, 101, 108, 108, 111] else none)
      (LazyHTTPFS.new exampleConfig) 2 2 0
      = ReadOutcome.ok [108, 108, 111]
          ⟨(LazyHTTPFS.new exampleConfig).nodes,
           [("http://x/a", [104, 101, 108, 108, 111])]⟩ ["http://x/a"] ∧
    FS.read (fun u => if u = "http://x/a"
        then some [104, 101, 108, 108, 111] else none)
      (LazyHTTPFS.new exampleConfig) 2 7 0
      = ReadOutcome.panic ["http://x/a"] :=
  ⟨((read_slices_suffix
      (fun u => if u = "http://x/a"
        then some [104, 101, 108, 108, 111] else none)
      (LazyHTTPFS.new exampleConfig) 2 2 0
      ⟨{ baseAttr with ino := 2, size := 5, blocks := 0 }, "http://x/a"⟩
      [104, 101, 108, 108, 111] (by decide)).2 rfl (by decide)).1
      (by decide),
   ((read_slices_suffix
      (fun u => if u = "http://x/a"
        then some [104, 101, 108, 108, 111] else none)
      (LazyHTTPFS.new exampleConfig) 2 7 0
      ⟨{ baseAttr with ino := 2, size := 5, blocks := 0 }, "http://x/a"⟩
      [104, 101, 108, 108, 111] (by decide)).2 rfl (by decide)).2
      (by decide)⟩

/-- C3 (defect witness): on a cache miss whose fetch fails, the code
unwraps the transport error and aborts the whole process — it does not
return a per-call recoverable error, contrary to the specification's
required behaviour. -/
theorem read_fetch_failure_aborts :
    FS.read (fun _ => none) (LazyHTTPFS.new exampleConfig) 2 0 5
      = ReadOutcome.panic ["http://x/a"] := by
  decide

/-! ### Directory listing order -/

/-- A flat config of two files, declared in the order `x` then `y`. -/
def pairConfig : List InputFile :=
  [InputFile.urlFile "x" "http://x/1" 1,
   InputFile.urlFile "y" "http://x/2" 2]

/-- C4 counterexample: the children are stored in a `HashMap`, whose
iteration order is arbitrary.  For the two-file config declared as
`x, y`, the iteration order that yields `("y", 3)` before `("x", 2)` is a
permutation of the stored entries — hence a possible `HashMap` iteration
— and under it `readdir` emits the children as `y, x`, not in the
declared sibling order `x, y`. -/
theorem readdir_order_not_declared :
    List.Perm [("y", 3), ("x", 2)] [("x", 2), ("y", 3)] ∧
    (∃ d, (LazyHTTPFS.new pairConfig).get_inode 1
        = some (Node.dirNode d) ∧ d.contents = [("x", 2), ("y", 3)]) ∧
    ((LazyHTTPFS.new pairConfig).readdir 1 2 100
        [("y", 3), ("x", 2)]).map (fun es => es.map DirEntry.name)
      = some ["y", "x"] ∧
    (["y", "x"] : List String) ≠ ["x", "y"] := by
  refine ⟨?_, ?_, ?_, ?_⟩
  · decide
  · exact ⟨⟨{ baseAttr with ino := 1, kind := FileType.directory },
      [("x", 2), ("y", 3)]⟩, by decide, rfl⟩
  · decide
  · decide

theorem children_proj_aux (fs : FS) (iter : List (String × Nat)) :
    ∀ n : Nat, (∀ p ∈ iter, (fs.get_inode p.2).isSome = true) →
    ((enumFromN n (iter.filterMap (fun p => (fs.get_inode p.2).map
        (fun file => (p.2, p.1, file.filetype))))).map
      (fun e => (⟨e.2.1, e.1 + 1, e.2.2.2, e.2.2.1⟩ : DirEntry))).map
        (fun e => (e.name, e.ino)) = iter := by
  induction iter with
  | nil => intro n h; rfl
  | cons p rest ih =>
    intro n h
    obtain ⟨nd, hnd⟩ := Option.isSome_iff_exists.mp
      (h p (List.mem_cons_self p rest))
    rw [List.filterMap_cons]
    rw [hnd]
    simp only [Option.map_some', enumFromN, List.map_cons]
    rw [ih (n + 1) (fun q hq => h q (List.mem_cons_of_mem p hq))]

/-- C4 amended: `readdir` emits, after the two dot entries, exactly the
directory's recorded children — one entry per recorded (name, inode)
pair — in the iteration order of the children map.  That order is an
arbitrary but fixed permutation of the recorded entries (the map is never
mutated after construction, so it is the same on every call for the life
of the mount), not necessarily the declared sibling order. -/
theorem readdir_children_exactly_declared (files : List InputFile)
    (ino cap : Nat) (iter : List (String × Nat)) (d : DirNode)
    (hd : (LazyHTTPFS.new files).get_inode ino = some (Node.dirNode d))
    (hperm : iter.Perm d.contents)
    (hcap : 2 + iter.length ≤ cap) :
    ∃ es, (LazyHTTPFS.new files).readdir ino 0 cap iter = some es ∧
      (es.drop 2).map (fun e => (e.name, e.ino)) = iter ∧
      ((es.drop 2).map (fun e => (e.name, e.ino))).Perm d.contents := by
  have hres : ∀ p ∈ iter, ((LazyHTTPFS.new files).get_inode p.2).isSome
      = true := by
    intro p hp
    have hmem : p ∈ d.contents := hperm.mem_iff.mp hp
    obtain ⟨hb1, hb2⟩ := new_children_valid (get_inode_mem hd) hmem
    obtain ⟨h, hsome, _⟩ := new_get_inode_some hb1 hb2
    simp [hsome]
  have hlisting : (readdirListing (LazyHTTPFS.new files) ino iter).length
      ≤ 2 + iter.length := by
    simp only [readdirListing, List.length_cons]
    have := List.length_filterMap_le
      (fun p => ((LazyHTTPFS.new files).get_inode p.2).map
        (fun file => (p.2, p.1, file.filetype))) iter
    omega
  have hall : (readdirAll (LazyHTTPFS.new files) ino iter 0).length
      ≤ 2 + iter.length := by
    unfold readdirAll
    rw [List.length_map, List.drop_zero, enumFromN_length]
    exact hlisting
  refine ⟨readdirAll (LazyHTTPFS.new files) ino iter 0, ?_, ?_, ?_⟩
  · simp only [FS.readdir, hd]
    rw [List.take_of_length_le (le_trans hall hcap)]
  · unfold readdirAll
    rw [List.drop_zero, ← List.map_drop]
    simp only [readdirListing]
    rw [enumFromN_drop]
    simp only [List.drop_succ_cons, List.drop_zero]
    exact children_proj_aux (LazyHTTPFS.new files) iter 2 hres
  · unfold readdirAll
    rw [List.drop_zero, ← List.map_drop]
    simp only [readdirListing]
    rw [enumFromN_drop]
    simp only [List.drop_succ_cons, List.drop_zero]
    rw [children_proj_aux (LazyHTTPFS.new files) iter 2 hres]
    exact hperm

/-- Witness for C4's amended theorem: at the example root directory, the
reversed iteration order is emitted verbatim after the dots and is a
permutation of the recorded children. -/
theorem readdir_children_exactly_declared_witness :
    ∃ es, (LazyHTTPFS.new exampleConfig).readdir 1 0 100
        [("d", 3), ("a.txt", 2)] = some es ∧
      (es.drop 2).map (fun e => (e.name, e.ino)) = [("d", 3), ("a.txt", 2)] ∧
      ((es.drop 2).map (fun e => (e.name, e.ino))).Perm
        [("a.txt", 2), ("d", 3)] :=
  readdir_children_exactly_declared exampleConfig 1 100
    [("d", 3), ("a.txt", 2)]
    ⟨{ baseAttr with ino := 1, kind := FileType.directory },
     [("a.txt", 2), ("d", 3)]⟩
    (by decide) (by decide) (by decide)

/-! ### Cache behaviour of `read` across call sequences -/

theorem cacheGet_cons (c : List (String × List Nat)) (w : String)
    (v : List Nat) (u : String) :
    cacheGet ((w, v) :: c) u
      = if (w == u) = true then some v else cacheGet c u := by
  by_cases hb : (w == u) = true
  · simp [cacheGet, List.find?_cons, hb]
  · simp only [cacheGet, List.find?_cons]
    rw [Bool.not_eq_true] at hb
    rw [hb]
    simp [cacheGet, hb]

/-- Exhaustive enumeration of the behaviours of one `read` call, by the
branch of the source that fires. -/
theorem read_cases (world : String → Option (List Nat)) (fs : FS)
    (ino off sz : Nat) :
    (∃ file data, fs.get_inode ino = some (Node.fileNode file) ∧
      cacheGet fs.cache file.url = some data ∧ off ≤ data.length ∧
      fs.read world ino off sz
        = ReadOutcome.ok (data.drop off) fs []) ∨
    (∃ file data, fs.get_inode ino = some (Node.fileNode file) ∧
      cacheGet fs.cache file.url = some data ∧ data.length < off ∧
      fs.read world ino off sz = ReadOutcome.panic []) ∨
    (∃ file, fs.get_inode ino = some (Node.fileNode file) ∧
      cacheGet fs.cache file.url = none ∧ world file.url = none ∧
      fs.read world ino off sz = ReadOutcome.panic [file.url]) ∨
    (∃ file vec, fs.get_inode ino = some (Node.fileNode file) ∧
      cacheGet fs.cache file.url = none ∧ world file.url = some vec ∧
      off ≤ vec.length ∧
      fs.read world ino off sz = ReadOutcome.ok (vec.drop off)
        ⟨fs.nodes, (file.url, vec) :: fs.cache⟩ [file.url]) ∨
    (∃ file vec, fs.get_inode ino = some (Node.fileNode file) ∧
      cacheGet fs.cache file.url = none ∧ world file.url = some vec ∧
      vec.length < off ∧
      fs.read world ino off sz = ReadOutcome.panic [file.url]) ∨
    ((fs.get_inode ino = none ∨
        ∃ d, fs.get_inode ino = some (Node.dirNode d)) ∧
      fs.read world ino off sz = ReadOutcome.err fs []) := by
  cases hi : fs.get_inode ino with
  | none =>
    refine Or.inr (Or.inr (Or.inr (Or.inr (Or.inr ⟨Or.inl rfl, ?_⟩))))
    simp [FS.read, hi]
  | some nd =>
    cases nd with
    | dirNode d =>
      refine Or.inr (Or.inr (Or.inr (Or.inr (Or.inr ⟨Or.inr ⟨d, rfl⟩, ?_⟩))))
      simp [FS.read, hi]
    | fileNode file =>
      cases hcc : cacheGet fs.cache file.url with
      | some data =>
        by_cases ho : off ≤ data.length
        · refine Or.inl ⟨file, data, rfl, hcc, ho, ?_⟩
          simp [FS.read, hi, hcc, ho]
        · refine Or.inr (Or.inl ⟨file, data, rfl, hcc, by omega, ?_⟩)
          simp [FS.read, hi, hcc, if_neg ho]
      | none =>
        cases hw : world file.url with
        | none =>
          refine Or.inr (Or.inr (Or.inl ⟨file, rfl, hcc, hw, ?_⟩))
          simp [FS.read, hi, hcc, hw]
        | some vec =>
          by_cases ho : off ≤ vec.length
          · refine Or.inr (Or.inr (Or.inr (Or.inl
              ⟨file, vec, rfl, hcc, hw, ho, ?_⟩)))
            simp [FS.read, hi, hcc, hw, ho]
          · refine Or.inr (Or.inr (Or.inr (Or.inr (Or.inl
              ⟨file, vec, rfl, hcc, hw, by omega, ?_⟩))))
            simp [FS.read, hi, hcc, hw, if_neg ho]

/-- If `url` is already cached with `buf` before a `read` call, it is still
cached with `buf` after the call (entries are never updated or removed:
the only insertion targets a key that was missing), and the call invokes
no fetch of `url`. -/
theorem read_preserves_cached {world : String → Option (List Nat)}
    {fs : FS} {ino off sz : Nat} {url : String} {buf : List Nat}
    (hc : cacheGet fs.cache url = some buf) :
    (∀ d f fe, fs.read world ino off sz = ReadOutcome.ok d f fe →
      cacheGet f.cache url = some buf ∧ fe.count url = 0) ∧
    (∀ f fe, fs.read world ino off sz = ReadOutcome.err f fe →
      cacheGet f.cache url = some buf ∧ fe.count url = 0) ∧
    (∀ fe, fs.read world ino off sz = ReadOutcome.panic fe →
      fe.count url = 0) := by
  have hfresh : ∀ file : FileNode,
      cacheGet fs.cache file.url = none → (file.url == url) = false := by
    intro file hcc
    rw [beq_eq_false_iff_ne]
    intro he
    rw [he, hc] at hcc
    cases hcc
  rcases read_cases world fs ino off sz with
    ⟨file, data, hi, hcc, ho, hr⟩ | ⟨file, data, hi, hcc, ho, hr⟩ |
    ⟨file, hi, hcc, hw, hr⟩ | ⟨file, vec, hi, hcc, hw, ho, hr⟩ |
    ⟨file, vec, hi, hcc, hw, ho, hr⟩ | ⟨hi, hr⟩
  · refine ⟨?_, ?_, ?_⟩
    · intro d f fe he
      rw [hr] at he
      cases he
      exact ⟨hc, rfl⟩
    · intro f fe he
      rw [hr] at he
      cases he
    · intro fe he
      rw [hr] at he
      cases he
  · refine ⟨?_, ?_, ?_⟩
    · intro d f fe he
      rw [hr] at he
      cases he
    · intro f fe he
      rw [hr] at he
      cases he
    · intro fe he
      rw [hr] at he
      cases he
      rfl
  · refine ⟨?_, ?_, ?_⟩
    · intro d f fe he
      rw [hr] at he
      cases he
    · intro f fe he
      rw [hr] at he
      cases he
    · intro fe he
      rw [hr] at he
      cases he
      simp [List.count_cons, hfresh file hcc]
  · refine ⟨?_, ?_, ?_⟩
    · intro d f fe he
      rw [hr] at he
      cases he
      constructor
      · rw [cacheGet_cons, hfresh file hcc]
        simpa using hc
      · simp [List.count_cons, hfresh file hcc]
    · intro f fe he
      rw [hr] at he
      cases he
    · intro fe he
      rw [hr] at he
      cases he
  · refine ⟨?_, ?_, ?_⟩
    · intro d f fe he
      rw [hr] at he
      cases he
    · intro f fe he
      rw [hr] at he
      cases he
    · intro fe he
      rw [hr] at he
      cases he
      simp [List.count_cons, hfresh file hcc]
  · refine ⟨?_, ?_, ?_⟩
    · intro d f fe he
      rw [hr] at he
      cases he
    · intro f fe he
      rw [hr] at he
      cases he
      exact ⟨hc, rfl⟩
    · intro fe he
      rw [hr] at he
      cases he

/-- A single `read` call invokes the fetch client at most once for any
given URL, and when it does fetch `url` and returns normally, `url` is in
the cache afterwards; a NotFound reply fetches nothing. -/
theorem read_fetch_once (world : String → Option (List Nat)) (fs : FS)
    (ino off sz : Nat) (url : String) :
    (∀ d f fe, fs.read world ino off sz = ReadOutcome.ok d f fe →
      fe.count url ≤ 1 ∧
      (1 ≤ fe.count url → ∃ b, cacheGet f.cache url = some b)) ∧
    (∀ f fe, fs.read world ino off sz = ReadOutcome.err f fe → fe = []) ∧
    (∀ fe, fs.read world ino off sz = ReadOutcome.panic fe →
      fe.count url ≤ 1) := by
  rcases read_cases world fs ino off sz with
    ⟨file, data, hi, hcc, ho, hr⟩ | ⟨file, data, hi, hcc, ho, hr⟩ |
    ⟨file, hi, hcc, hw, hr⟩ | ⟨file, vec, hi, hcc, hw, ho, hr⟩ |
    ⟨file, vec, hi, hcc, hw, ho, hr⟩ | ⟨hi, hr⟩
  · refine ⟨?_, ?_, ?_⟩
    · intro d f fe he
      rw [hr] at he
      cases he
      exact ⟨by simp, by simp⟩
    · intro f fe he
      rw [hr] at he
      cases he
    · intro fe he
      rw [hr] at he
      cases he
  · refine ⟨?_, ?_, ?_⟩
    · intro d f fe he
      rw [hr] at he
      cases he
    · intro f fe he
      rw [hr] at he
      cases he
    · intro fe he
      rw [hr] at he
      cases he
      simp
  · refine ⟨?_, ?_, ?_⟩
    · intro d f fe he
      rw [hr] at he
      cases he
    · intro f fe he
      rw [hr] at he
      cases he
    · intro fe he
      rw [hr] at he
      cases he
      by_cases hb : (file.url == url) = true
      · simp [List.count_cons, hb]
      · rw [Bool.not_eq_true] at hb
        simp [List.count_cons, hb]
  · refine ⟨?_, ?_, ?_⟩
    · intro d f fe he
      rw [hr] at he
      cases he
      by_cases hb : (file.url == url) = true
      · constructor
        · simp [List.count_cons, hb]
        · intro _
          refine ⟨vec, ?_⟩
          rw [cacheGet_cons, hb]
          simp
      · rw [Bool.not_eq_true] at hb
        constructor
        · simp [List.count_cons, hb]
        · intro habs
          simp [List.count_cons, hb] at habs
    · intro f fe he
      rw [hr] at he
      cases he
    · intro fe he
      rw [hr] at he
      cases he
  · refine ⟨?_, ?_, ?_⟩
    · intro d f fe he
      rw [hr] at he
      cases he
    · intro f fe he
      rw [hr] at he
      cases he
    · intro fe he
      rw [hr] at he
      cases he
      by_cases hb : (file.url == url) = true
      · simp [List.count_cons, hb]
      · rw [Bool.not_eq_true] at hb
        simp [List.count_cons, hb]
  · refine ⟨?_, ?_, ?_⟩
    · intro d f fe he
      rw [hr] at he
      cases he
    · intro f fe he
      rw [hr] at he
      cases he
      rfl
    · intro fe he
      rw [hr] at he
      cases he

/-- Over any sequence of `read` calls: once `url` is cached with `buf` it
stays cached with `buf` through every surviving state and is never
fetched again; and in total `url` is fetched at most once. -/
theorem runReads_spec (world : String → Option (List Nat)) (url : String) :
    ∀ (ops : List (Nat × Nat × Nat)) (fs : FS),
      (∀ buf, cacheGet fs.cache url = some buf →
        (runReads world fs ops).2.count url = 0 ∧
        ∀ f, (runReads world fs ops).1 = some f →
          cacheGet f.cache url = some buf) ∧
      (runReads world fs ops).2.count url ≤ 1 := by
  intro ops
  induction ops with
  | nil =>
    intro fs
    constructor
    · intro buf hbuf
      refine ⟨rfl, ?_⟩
      intro f hf
      simp only [runReads] at hf
      injection hf with hf
      rw [← hf]
      exact hbuf
    · simp [runReads]
  | cons op rest ih =>
    intro fs
    constructor
    · intro buf hbuf
      cases hr : fs.read world op.1 op.2.1 op.2.2 with
      | ok d fs' fe =>
        obtain ⟨hkeep, hzero⟩ := (read_preserves_cached hbuf).1 d fs' fe hr
        obtain ⟨hrest0, hrestf⟩ := (ih fs').1 buf hkeep
        constructor
        · simp only [runReads, hr, List.count_append]
          omega
        · intro f hf
          simp only [runReads, hr] at hf
          exact hrestf f hf
      | err fs' fe =>
        obtain ⟨hkeep, hzero⟩ := (read_preserves_cached hbuf).2.1 fs' fe hr
        obtain ⟨hrest0, hrestf⟩ := (ih fs').1 buf hkeep
        constructor
        · simp only [runReads, hr, List.count_append]
          omega
        · intro f hf
          simp only [runReads, hr] at hf
          exact hrestf f hf
      | panic fe =>
        have hzero := (read_preserves_cached hbuf).2.2 fe hr
        constructor
        · simp only [runReads, hr]
          exact hzero
        · intro f hf
          simp only [runReads, hr] at hf
          cases hf
    · cases hr : fs.read world op.1 op.2.1 op.2.2 with
      | ok d fs' fe =>
        obtain ⟨hle, hcached⟩ :=
          (read_fetch_once world fs op.1 op.2.1 op.2.2 url).1 d fs' fe hr
        simp only [runReads, hr, List.count_append]
        by_cases h1 : 1 ≤ fe.count url
        · obtain ⟨b, hb⟩ := hcached h1
          have := ((ih fs').1 b hb).1
          omega
        · have := (ih fs').2
          omega
      | err fs' fe =>
        have hnil :=
          (read_fetch_once world fs op.1 op.2.1 op.2.2 url).2.1 fs' fe hr
        simp only [runReads, hr, List.count_append, hnil, List.count_nil]
        have := (ih fs').2
        omega
      | panic fe =>
        have hle :=
          (read_fetch_once world fs op.1 op.2.1 op.2.2 url).2.2 fe hr
        simp only [runReads, hr]
        exact hle

/-- C1: once a file's URL has been fetched and cached by a first read,
any subsequent read of that file is answered by slicing the cached buffer
with the state unchanged and no fetch (even an out-of-range offset, which
aborts, fetches nothing); over any sequence of reads the cached entry is
never updated or removed, no further fetch of that URL occurs, and in
total at most one fetch per URL is ever invoked. -/
theorem read_cache_idempotence (world : String → Option (List Nat))
    (fs : FS) (url : String) (buf : List Nat)
    (ops : List (Nat × Nat × Nat)) :
    (∀ ino off sz file,
      fs.get_inode ino = some (Node.fileNode file) → file.url = url →
      cacheGet fs.cache url = some buf →
      (off ≤ buf.length →
        fs.read world ino off sz = ReadOutcome.ok (buf.drop off) fs []) ∧
      (buf.length < off →
        fs.read world ino off sz = ReadOutcome.panic [])) ∧
    (cacheGet fs.cache url = some buf →
      (runReads world fs ops).2.count url = 0 ∧
      ∀ f, (runReads world fs ops).1 = some f →
        cacheGet f.cache url = some buf) ∧
    ((runReads world fs ops).2.count url ≤ 1) := by
  refine ⟨?_, ?_, ?_⟩
  · intro ino off sz file hf hu hc
    rw [← hu] at hc
    constructor
    · intro hoff
      simp [FS.read, hf, hc, hoff]
    · intro hoff
      simp [FS.read, hf, hc, if_neg (by omega : ¬ off ≤ buf.length)]
  · intro hc
    exact (runReads_spec world url ops fs).1 buf hc
  · exact (runReads_spec world url ops fs).2

/-- Witness for C1: with a.txt's body cached, a read at offset 2 slices
the cache with no fetch and no state change; and the two-read sequence
(offsets 0 then 2) from the empty cache fetches http://x/a at most
once. -/
theorem read_cache_idempotence_witness :
    FS.read (fun u => if u = "http://x/a"
        then some [104, 101, 108, 108, 111] else none)
      ⟨(LazyHTTPFS.new exampleConfig).nodes,
       [("http://x/a", [104, 101, 108, 108, 111])]⟩ 2 2 0
      = ReadOutcome.ok [108, 108, 111]
          ⟨(LazyHTTPFS.new exampleConfig).nodes,
           [("http://x/a", [104, 101, 108, 108, 111])]⟩ [] ∧
    (runReads (fun u => if u = "http://x/a"
        then some [104, 101, 108, 108, 111] else none)
      (LazyHTTPFS.new exampleConfig)
      [(2, 0, 5), (2, 2, 3)]).2.count "http://x/a" ≤ 1 :=
  ⟨((read_cache_idempotence
      (fun u => if u = "http://x/a"
        then some [104, 101, 108, 108, 111] else none)
      ⟨(LazyHTTPFS.new exampleConfig).nodes,
       [("http://x/a", [104, 101, 108, 108, 111])]⟩
      "http://x/a" [104, 101, 108, 108, 111] []).1 2 2 0
      ⟨{ baseAttr with ino := 2, size := 5, blocks := 0 }, "http://x/a"⟩
      (by decide) rfl (by decide)).1 (by decide),
   (read_cache_idempotence
      (fun u => if u = "http://x/a"
        then some [104, 101, 108, 108, 111] else none)
      (LazyHTTPFS.new exampleConfig)
      "http://x/a" [] [(2, 0, 5), (2, 2, 3)]).2.2⟩

